import Mathlib

/-!
Shallow embedding of `llvm/lib/Analysis/AssumeBundleQueries.cpp`.

The source file is a query layer over the operand bundles that an
`llvm.assume` call instruction carries.  The embedding keeps the source's
names and control flow.  Machine integers (`unsigned`, `uint64_t`) are
modelled as `Nat`, with explicit truncation mod `2 ^ 32` where the source
assigns a `uint64_t` into an `unsigned`.  Fatal paths (failed `assert`,
failed `cast<>`, out-of-range operand reads — all of which abort or are
undefined in the source) are modelled as `Option.none` results, so that
every definition stays executable and the "detected as fatal" behaviour is
visible in the embedding.
-/

namespace AssumeBundle

/-- A program value.  The query code only ever compares values for identity
and reads the payload of integer constants (`cast<ConstantInt>` followed by
`getZExtValue`), so a value is either an opaque named value or an integer
constant carrying its zero-extended payload. -/
inductive Value where
  | named (id : Nat)
  | constInt (val : Nat)
deriving DecidableEq

/-- `CallBase::BundleOpInfo`: the tag of one operand bundle together with
the half-open range `[Begin, End)` of slots it occupies inside the owning
call's flattened operand list.  `Begin` and `End` are `unsigned` in the
source. -/
structure BundleOpInfo where
  Tag : String
  Begin : Nat
  End : Nat
deriving DecidableEq

/-- An `llvm.assume` call instruction: its flattened operand list (operand 0
is the `i1` condition argument; bundle operands follow) and its ordered
bundle descriptors. -/
structure CallInst where
  operands : List Value
  bundles : List BundleOpInfo
deriving DecidableEq

/-- An instruction that may appear as the user of a use-edge: either an
`llvm.assume` intrinsic call or any other instruction (only its operand
list matters to the queries). -/
inductive Instruction where
  | assume (c : CallInst)
  | other (operands : List Value)
deriving DecidableEq

/-- A use-edge: an operand position inside a using instruction. -/
structure Use where
  user : Instruction
  operandNo : Nat
deriving DecidableEq

/-- `U->get()`: the value sitting at the use's operand position. -/
def Use.get (U : Use) : Option Value :=
  match U.user with
  | .assume c => c.operands[U.operandNo]?
  | .other ops => ops[U.operandNo]?

/-- `2 ^ 32`, the modulus of the source's `unsigned` arithmetic. -/
def W32 : Nat := 4294967296

/-- Wrap-around subtraction of two `unsigned` quantities. -/
def usub32 (a b : Nat) : Nat := (a % W32 + W32 - b % W32) % W32

/-- The bundle's slot count, i.e. the source expression `BOI.End - BOI.Begin`
computed in `unsigned` arithmetic. -/
def BundleOpInfo.slotCount (BOI : BundleOpInfo) : Nat := usub32 BOI.End BOI.Begin

/-- Modelled from the spec: the index of the "WasOn" slot (slot 0, the value
the fact is about).  The enumerator `ABA_WasOn` lives in the header
`AssumeBundleQueries.h`, which is not part of the sources. -/
def ABA_WasOn : Nat := 0

/-- Modelled from the spec: the index of the "Argument" slot (slot 1, the
integer refinement of the fact).  The enumerator `ABA_Argument` lives in the
header, which is not part of the sources. -/
def ABA_Argument : Nat := 1

/-- Modelled from the spec: the distinguished "ignore" bundle tag carrying
no semantic content (declared in the header, which is not part of the
sources). -/
def IgnoreBundleTag : String := "ignore"

/-- Modelled from the spec: attribute kinds are an interned enumeration with
a distinguished "none" sentinel (`Attribute::None`, value 0 in LLVM); the
registry `Attribute::getAttrKindFromName` is external to the sources and is
threaded through the embedding as a `String → Nat` parameter. -/
def Attribute.None : Nat := 0

/-- `bundleHasArgument`: true iff the bundle's slot count exceeds `Idx`. -/
def bundleHasArgument (BOI : BundleOpInfo) (Idx : Nat) : Bool :=
  decide (BOI.slotCount > Idx)

/-- `getValueFromBundleOpInfo`: the operand at `op_begin() + BOI.Begin + Idx`.
The source asserts `bundleHasArgument BOI Idx`; a violated assertion, and an
operand read past the end of the operand list, are fatal and modelled as
`none`. -/
def getValueFromBundleOpInfo (Assume : CallInst) (BOI : BundleOpInfo)
    (Idx : Nat) : Option Value :=
  if bundleHasArgument BOI Idx then Assume.operands[BOI.Begin + Idx]?
  else none

/-- Modelled from the spec: `CallBase::getBundleOpInfoForOperand` (declared
in `InstrTypes.h`, not part of the sources) locates the bundle whose slot
range contains a given operand position; an operand position inside no
bundle is a fatal contract error, modelled as `none`. -/
def CallInst.getBundleOpInfoForOperand (c : CallInst) (OpIdx : Nat) :
    Option BundleOpInfo :=
  c.bundles.find? (fun b => decide (b.Begin ≤ OpIdx ∧ OpIdx < b.End))

/-- Basic well-formedness of an assume call, as guaranteed by the IR: every
bundle's slot range lies inside the operand list, is non-inverted, and fits
in `unsigned`. -/
def CallInst.WellFormed (c : CallInst) : Prop :=
  ∀ BOI ∈ c.bundles,
    BOI.Begin ≤ BOI.End ∧ BOI.End ≤ c.operands.length ∧ BOI.End < W32

instance (c : CallInst) : Decidable c.WellFormed := by
  unfold CallInst.WellFormed; infer_instance

/-- `isAssumeWithEmptyBundle`: `none_of` the bundles has a tag different
from the ignore tag. -/
def isAssumeWithEmptyBundle (CI : CallInst) : Bool :=
  !(CI.bundles.any fun BOI => decide (BOI.Tag ≠ IgnoreBundleTag))

/-- `getBundleFromUse`: the owning bundle of a use-edge, provided the user
is an `llvm.assume` call whose condition argument (operand 0) is not the
used value itself — the pattern
`m_Intrinsic<Intrinsic::assume>(m_Unless(m_Specific(U->get())))`.
`none` covers both the source's `nullptr` result and the fatal
owning-bundle lookup on an operand position lying in no bundle. -/
def getBundleFromUse (U : Use) : Option BundleOpInfo :=
  match U.user with
  | .other _ => none
  | .assume c =>
    match U.get, c.operands[0]? with
    | some used, some cond =>
      if used = cond then none
      else c.getBundleOpInfoForOperand U.operandNo
    | _, _ => none

/-- Modelled from the spec: the decoded, transient result of a query — the
fact kind (with the none sentinel for "no fact"), the nullable referenced
value ("WasOn"), and the integer argument, present only when the bundle had
an Argument slot.  The struct itself is declared in the header, which is not
part of the sources. -/
structure RetainedKnowledge where
  AttrKind : Nat
  WasOn : Option Value
  ArgValue : Option Nat
deriving DecidableEq

/-- Modelled from the spec: the "none" sentinel Retained Knowledge. -/
def RetainedKnowledge.none : RetainedKnowledge :=
  ⟨Attribute.None, Option.none, Option.none⟩

/-- Modelled from the spec: boolean truthiness of a Retained Knowledge is
"kind is not the none sentinel". -/
def RetainedKnowledge.toBool (RK : RetainedKnowledge) : Bool :=
  decide (RK.AttrKind ≠ Attribute.None)

/-- `getKnowledgeFromBundle`: decode a bundle into a Retained Knowledge.
`kindOf` stands for the external registry `Attribute::getAttrKindFromName`.
A fatal operand read or a failed `cast<ConstantInt>` is modelled as the
outer `none`. -/
def getKnowledgeFromBundle (kindOf : String → Nat) (Assume : CallInst)
    (BOI : BundleOpInfo) : Option RetainedKnowledge :=
  match
    (if bundleHasArgument BOI ABA_WasOn then
      match getValueFromBundleOpInfo Assume BOI ABA_WasOn with
      | some v => some (some v)
      | Option.none => Option.none
    else some Option.none) with
  | Option.none => Option.none
  | some wasOn =>
    if BOI.slotCount > ABA_Argument then
      match getValueFromBundleOpInfo Assume BOI ABA_Argument with
      | some (Value.constInt n) =>
        some ⟨kindOf BOI.Tag, wasOn, some n⟩
      | _ => Option.none
    else
      some ⟨kindOf BOI.Tag, wasOn, Option.none⟩

/-- `getKnowledgeFromOperandInAssume`: locate the bundle owning an operand
position and project it. -/
def getKnowledgeFromOperandInAssume (kindOf : String → Nat)
    (AssumeCI : CallInst) (Idx : Nat) : Option RetainedKnowledge :=
  match AssumeCI.getBundleOpInfoForOperand Idx with
  | some BOI => getKnowledgeFromBundle kindOf AssumeCI BOI
  | Option.none => Option.none

/-- `getKnowledgeFromUse`: resolve the owning bundle of a use, project it,
and keep the result only when its kind is among the wanted kinds. -/
def getKnowledgeFromUse (kindOf : String → Nat) (U : Use)
    (AttrKinds : List Nat) : Option RetainedKnowledge :=
  match getBundleFromUse U with
  | Option.none => some RetainedKnowledge.none
  | some Bundle =>
    match U.user with
    | .other _ => Option.none
    | .assume c =>
      match getKnowledgeFromBundle kindOf c Bundle with
      | Option.none => Option.none
      | some RK =>
        if AttrKinds.contains RK.AttrKind then some RK
        else some RetainedKnowledge.none

/-- The found-a-match tail of `hasAttributeInAssume`: when `wantArg` is set
the source asserts the bundle has an Argument slot and `cast`s the operand
to `ConstantInt`; both failures are fatal (`none`). -/
def hasAttributeInAssumeFound (Assume : CallInst) (BOI : BundleOpInfo)
    (wantArg : Bool) : Option (Bool × Option Nat) :=
  if wantArg then
    if bundleHasArgument BOI ABA_Argument then
      match getValueFromBundleOpInfo Assume BOI ABA_Argument with
      | some (Value.constInt n) => some (true, some n)
      | _ => Option.none
    else Option.none
  else some (true, Option.none)

/-- The scan loop of `hasAttributeInAssume` over the bundle list, in stored
order: skip bundles whose tag differs from `AttrName`; when `IsOn` was
supplied, also skip bundles with no WasOn slot or a different WasOn value;
the first surviving bundle wins. -/
def hasAttributeInAssumeLoop (Assume : CallInst) (IsOn : Option Value)
    (AttrName : String) (wantArg : Bool) :
    List BundleOpInfo → Option (Bool × Option Nat)
  | [] => some (false, Option.none)
  | BOI :: rest =>
    if BOI.Tag ≠ AttrName then
      hasAttributeInAssumeLoop Assume IsOn AttrName wantArg rest
    else
      match IsOn with
      | Option.none => hasAttributeInAssumeFound Assume BOI wantArg
      | some isOnV =>
        if BOI.slotCount ≤ ABA_WasOn then
          hasAttributeInAssumeLoop Assume IsOn AttrName wantArg rest
        else
          match getValueFromBundleOpInfo Assume BOI ABA_WasOn with
          | Option.none => Option.none
          | some w =>
            if isOnV ≠ w then
              hasAttributeInAssumeLoop Assume IsOn AttrName wantArg rest
            else hasAttributeInAssumeFound Assume BOI wantArg

/-- `hasAttributeInAssume`: the out-parameter `ArgVal` is modelled as the
`wantArg` flag plus the optional written value in the result. -/
def hasAttributeInAssume (Assume : CallInst) (IsOn : Option Value)
    (AttrName : String) (wantArg : Bool) : Option (Bool × Option Nat) :=
  if Assume.bundles.isEmpty then some (false, Option.none)
  else hasAttributeInAssumeLoop Assume IsOn AttrName wantArg Assume.bundles

/-- The `{Min, Max}` pair stored per (key, assumption) in the knowledge
map. -/
structure MinMax where
  Min : Nat
  Max : Nat
deriving DecidableEq

/-- A knowledge-map key: the nullable WasOn value paired with the decoded
attribute kind. -/
abbrev RKKey := Option Value × Nat

/-- The per-key inner map from assumption instance to min/max pair,
modelled as an association list with the DenseMap's overwrite semantics. -/
abbrev AssumeMinMax := List (CallInst × MinMax)

/-- The `RetainedKnowledgeMap`, modelled as an association list. -/
abbrev RetainedKnowledgeMap := List (RKKey × AssumeMinMax)

/-- Overwrite-or-append update of the inner map. -/
def innerSet (l : AssumeMinMax) (a : CallInst) (v : MinMax) : AssumeMinMax :=
  match l with
  | [] => [(a, v)]
  | (a', v') :: rest =>
    if a' = a then (a, v) :: rest else (a', v') :: innerSet rest a v

/-- Lookup in the inner map. -/
def innerGet (l : AssumeMinMax) (a : CallInst) : Option MinMax :=
  (l.find? fun p => decide (p.1 = a)).map (·.2)

/-- `Result[Key][&Assume] = v`: overwrite-or-insert the cell for
`(Key, Assume)`. -/
def mapSet (m : RetainedKnowledgeMap) (k : RKKey) (a : CallInst)
    (v : MinMax) : RetainedKnowledgeMap :=
  match m with
  | [] => [(k, [(a, v)])]
  | (k', l) :: rest =>
    if k' = k then (k, innerSet l a v) :: rest
    else (k', l) :: mapSet rest k a v

/-- Lookup of the cell for `(Key, Assume)`; `none` both when the key is
absent and when the inner map lacks the assumption — exactly the source's
`Lookup == Result.end() || !Lookup->second.count(&Assume)` test. -/
def mapGet (m : RetainedKnowledgeMap) (k : RKKey) (a : CallInst) :
    Option MinMax :=
  match (m.find? fun p => decide (p.1 = k)).map (·.2) with
  | some l => innerGet l a
  | Option.none => Option.none

/-- The key computation of `fillMapFromAssume` (source lines 68–71): the
WasOn value when the bundle has slot 0, paired with the decoded kind of the
tag.  A fatal operand read is `none`. -/
def fillMapKey (kindOf : String → Nat) (Assume : CallInst)
    (Bundles : BundleOpInfo) : Option RKKey :=
  if bundleHasArgument Bundles ABA_WasOn then
    match getValueFromBundleOpInfo Assume Bundles ABA_WasOn with
    | some v => some (some v, kindOf Bundles.Tag)
    | Option.none => Option.none
  else some (Option.none, kindOf Bundles.Tag)

/-- The loop body of `fillMapFromAssume` for one bundle: skip bundles whose
key is entirely empty; record `(0, 0)` for bundles with no Argument slot;
otherwise initialize the cell to `(Val, Val)` or widen the existing
min/max.  The `uint64_t → unsigned` assignment truncates mod `2 ^ 32`. -/
def fillMapStep (kindOf : String → Nat) (Assume : CallInst)
    (Result : RetainedKnowledgeMap) (Bundles : BundleOpInfo) :
    Option RetainedKnowledgeMap :=
  match fillMapKey kindOf Assume Bundles with
  | Option.none => Option.none
  | some Key =>
    if Key.1 = Option.none ∧ Key.2 = Attribute.None then some Result
    else if !bundleHasArgument Bundles ABA_Argument then
      some (mapSet Result Key Assume ⟨0, 0⟩)
    else
      match getValueFromBundleOpInfo Assume Bundles ABA_Argument with
      | some (Value.constInt n) =>
        let Val := n % W32
        match mapGet Result Key Assume with
        | Option.none => some (mapSet Result Key Assume ⟨Val, Val⟩)
        | some mm =>
          some (mapSet Result Key Assume
            ⟨min Val mm.Min, max Val mm.Max⟩)
      | _ => Option.none

/-- `fillMapFromAssume`: fold the loop body over the assumption's bundles
in stored order. -/
def fillMapFromAssume (kindOf : String → Nat) (Assume : CallInst)
    (Result : RetainedKnowledgeMap) : Option RetainedKnowledgeMap :=
  Assume.bundles.foldlM (fillMapStep kindOf Assume) Result

/-- Modelled from the spec: one entry of the external Assumption Index
(`AssumptionCache::ResultElem`, not part of the sources) — a possibly-null
reference to an assume instruction plus a bundle index, with a reserved
sentinel index meaning "not a real bundle slot". -/
structure ResultElem where
  Assume : Option CallInst
  Index : Nat
deriving DecidableEq

/-- Modelled from the spec: the reserved "expression result" sentinel
index of the Assumption Index (`AssumptionCache::ExprResultIdx`, the
largest `unsigned`, declared outside the sources). -/
def ExprResultIdx : Nat := 4294967295

/-- The indexed path of `getKnowledgeForValue`: walk the value's cache
entries in stored order; skip null assumes and expression-result
placeholders; a candidate is returned when its decoded knowledge is truthy,
its kind is among the wanted kinds, and the filter accepts it.  An
out-of-range bundle index and a fatal projection are modelled as the outer
`none`. -/
def knowledgeFromCache (kindOf : String → Nat) (AttrKinds : List Nat)
    (Filter : RetainedKnowledge → CallInst → BundleOpInfo → Bool) :
    List ResultElem → Option RetainedKnowledge
  | [] => some RetainedKnowledge.none
  | Elem :: rest =>
    match Elem.Assume with
    | Option.none => knowledgeFromCache kindOf AttrKinds Filter rest
    | some II =>
      if Elem.Index = ExprResultIdx then
        knowledgeFromCache kindOf AttrKinds Filter rest
      else
        match II.bundles[Elem.Index]? with
        | Option.none => Option.none
        | some BOI =>
          match getKnowledgeFromBundle kindOf II BOI with
          | Option.none => Option.none
          | some RK =>
            if RK.toBool && AttrKinds.contains RK.AttrKind
                && Filter RK II BOI then some RK
            else knowledgeFromCache kindOf AttrKinds Filter rest

/-- The unindexed fallback path of `getKnowledgeForValue`: walk the value's
use list, resolve each use-edge to its owning bundle, and apply the same
truthiness, kind-membership and filter checks. -/
def knowledgeFromUses (kindOf : String → Nat) (AttrKinds : List Nat)
    (Filter : RetainedKnowledge → CallInst → BundleOpInfo → Bool) :
    List Use → Option RetainedKnowledge
  | [] => some RetainedKnowledge.none
  | U :: rest =>
    match getBundleFromUse U with
    | Option.none => knowledgeFromUses kindOf AttrKinds Filter rest
    | some Bundle =>
      match U.user with
      | .other _ => Option.none
      | .assume c =>
        match getKnowledgeFromBundle kindOf c Bundle with
        | Option.none => Option.none
        | some RK =>
          if RK.toBool && AttrKinds.contains RK.AttrKind
              && Filter RK c Bundle then some RK
          else knowledgeFromUses kindOf AttrKinds Filter rest

/-- `getKnowledgeForValue`: the indexed path when an Assumption Index is
supplied, the use-scan fallback otherwise.  The value `V` itself enters the
embedding through its cache-entry list and its use list. -/
def getKnowledgeForValue (kindOf : String → Nat) (AttrKinds : List Nat)
    (AC : Option (List ResultElem)) (uses : List Use)
    (Filter : RetainedKnowledge → CallInst → BundleOpInfo → Bool) :
    Option RetainedKnowledge :=
  match AC with
  | some cache => knowledgeFromCache kindOf AttrKinds Filter cache
  | Option.none => knowledgeFromUses kindOf AttrKinds Filter uses

/-- `getKnowledgeValidInContext`: specialize `getKnowledgeForValue` with a
filter deferring to the external Validity Oracle
(`isValidAssumeForContext`, not part of the sources), threaded in as the
`oracle` parameter. -/
def getKnowledgeValidInContext (kindOf : String → Nat)
    (AttrKinds : List Nat) (oracle : CallInst → Bool)
    (AC : Option (List ResultElem)) (uses : List Use) :
    Option RetainedKnowledge :=
  getKnowledgeForValue kindOf AttrKinds AC uses (fun _ I _ => oracle I)

/-- The candidates the indexed path visits, as (assume, bundle) pairs, in
stored order. -/
def cacheCandidates (cache : List ResultElem) :
    List (CallInst × BundleOpInfo) :=
  cache.filterMap fun Elem =>
    match Elem.Assume with
    | Option.none => Option.none
    | some II =>
      if Elem.Index = ExprResultIdx then Option.none
      else (II.bundles[Elem.Index]?).map (fun b => (II, b))

/-- The candidates the fallback path visits, as (assume, bundle) pairs, in
use-list order. -/
def useCandidates (uses : List Use) : List (CallInst × BundleOpInfo) :=
  uses.filterMap fun U =>
    match U.user, getBundleFromUse U with
    | Instruction.assume c, some b => some (c, b)
    | _, _ => Option.none

/-- A candidate that both paths would accept under an always-true filter:
its projection succeeds, is truthy, and its kind is wanted. -/
def goodCandidate (kindOf : String → Nat) (AttrKinds : List Nat)
    (p : CallInst × BundleOpInfo) : Bool :=
  match getKnowledgeFromBundle kindOf p.1 p.2 with
  | some RK => RK.toBool && AttrKinds.contains RK.AttrKind
  | Option.none => false

/-- No cache entry makes the indexed path abort: every visited candidate's
bundle index is in range and its projection succeeds. -/
def cacheElemOk (kindOf : String → Nat) (Elem : ResultElem) : Bool :=
  match Elem.Assume with
  | Option.none => true
  | some II =>
    Elem.Index == ExprResultIdx ||
      (match II.bundles[Elem.Index]? with
       | some b => (getKnowledgeFromBundle kindOf II b).isSome
       | Option.none => false)

/-- No use-edge makes the fallback path abort: whenever a bundle is
resolved, the user is an assume and the projection succeeds. -/
def useElemOk (kindOf : String → Nat) (U : Use) : Bool :=
  match getBundleFromUse U with
  | Option.none => true
  | some b =>
    match U.user with
    | Instruction.assume c => (getKnowledgeFromBundle kindOf c b).isSome
    | Instruction.other _ => false

/-! Lemmas about the association-list model of the knowledge map. -/

theorem innerGet_nil (a : CallInst) : innerGet [] a = Option.none := rfl

theorem innerGet_cons (p : CallInst × MinMax) (l : AssumeMinMax)
    (a : CallInst) :
    innerGet (p :: l) a = if p.1 = a then some p.2 else innerGet l a := by
  rcases eq_or_ne p.1 a with h | h <;> simp [innerGet, List.find?, h]

theorem innerGet_innerSet (l : AssumeMinMax) (a a' : CallInst) (v : MinMax) :
    innerGet (innerSet l a v) a' = if a' = a then some v else innerGet l a' := by
  induction l with
  | nil =>
    by_cases h : a' = a
    · simp [innerSet, innerGet_cons, h]
    · simp [innerSet, innerGet_cons, innerGet_nil, h, Ne.symm h]
  | cons p rest ih =>
    by_cases hp : p.1 = a
    · by_cases h : a' = a
      · simp [innerSet, hp, innerGet_cons, h]
      · simp [innerSet, hp, innerGet_cons, h, Ne.symm h]
    · by_cases hq : p.1 = a'
      · have h : a' ≠ a := fun e => hp (hq.trans e)
        simp [innerSet, hp, innerGet_cons, hq, h]
      · by_cases h : a' = a
        · subst h
          simp [innerSet, hp, innerGet_cons, hq, ih]
        · simp [innerSet, hp, innerGet_cons, hq, h, ih]

theorem mapGet_nil (k : RKKey) (a : CallInst) :
    mapGet [] k a = Option.none := rfl

theorem mapGet_cons (p : RKKey × AssumeMinMax) (m : RetainedKnowledgeMap)
    (k : RKKey) (a : CallInst) :
    mapGet (p :: m) k a =
      if p.1 = k then innerGet p.2 a else mapGet m k a := by
  rcases eq_or_ne p.1 k with h | h <;> simp [mapGet, List.find?, h]

theorem mapGet_mapSet (m : RetainedKnowledgeMap) (k k' : RKKey)
    (a a' : CallInst) (v : MinMax) :
    mapGet (mapSet m k a v) k' a' =
      if k' = k ∧ a' = a then some v else mapGet m k' a' := by
  induction m with
  | nil =>
    by_cases hk : k' = k
    · by_cases ha : a' = a
      · simp [mapSet, mapGet_cons, hk, ha, innerGet_cons]
      · simp [mapSet, mapGet_cons, mapGet_nil, hk, ha, innerGet_cons,
          innerGet_nil, Ne.symm ha]
    · simp [mapSet, mapGet_cons, mapGet_nil, hk, Ne.symm hk]
  | cons p rest ih =>
    by_cases hp : p.1 = k
    · by_cases hk : k' = k
      · simp [mapSet, hp, hk, mapGet_cons, innerGet_innerSet]
      · simp [mapSet, hp, mapGet_cons, hk, Ne.symm hk]
    · by_cases hq : p.1 = k'
      · have hk : k' ≠ k := fun e => hp (hq.trans e)
        simp [mapSet, hp, mapGet_cons, hq, hk]
      · simp [mapSet, hp, mapGet_cons, hq, ih]

/-! The effect abstraction of one `fillMapFromAssume` loop iteration. -/

/-- The write a bundle performs on its map cell: either the degenerate
`(0, 0)` overwrite or a min/max accumulation of one value. -/
inductive FillOp where
  | set0
  | val (v : Nat)
deriving DecidableEq

/-- Apply one fill operation to the current contents of a cell. -/
def applyFillOp (o : FillOp) (s : Option MinMax) : MinMax :=
  match o with
  | .set0 => ⟨0, 0⟩
  | .val v =>
    match s with
    | Option.none => ⟨v, v⟩
    | some mm => ⟨min v mm.Min, max v mm.Max⟩

/-- What one loop iteration of `fillMapFromAssume` does, without the map:
`none` = fatal, `some none` = bundle skipped, `some (some (k, o))` = the
cell `(k, Assume)` receives the operation `o`. -/
def bundleEffect (kindOf : String → Nat) (Assume : CallInst)
    (Bundles : BundleOpInfo) : Option (Option (RKKey × FillOp)) :=
  match fillMapKey kindOf Assume Bundles with
  | Option.none => Option.none
  | some Key =>
    if Key.1 = Option.none ∧ Key.2 = Attribute.None then some Option.none
    else if !bundleHasArgument Bundles ABA_Argument then
      some (some (Key, FillOp.set0))
    else
      match getValueFromBundleOpInfo Assume Bundles ABA_Argument with
      | some (Value.constInt n) => some (some (Key, FillOp.val (n % W32)))
      | _ => Option.none

theorem fillMapStep_eq_effect (kindOf : String → Nat) (A : CallInst)
    (m : RetainedKnowledgeMap) (B : BundleOpInfo) :
    fillMapStep kindOf A m B =
      match bundleEffect kindOf A B with
      | Option.none => Option.none
      | some Option.none => some m
      | some (some (k, o)) =>
        some (mapSet m k A (applyFillOp o (mapGet m k A))) := by
  unfold fillMapStep bundleEffect
  cases hK : fillMapKey kindOf A B with
  | none => rfl
  | some Key =>
    by_cases h1 : Key.1 = Option.none ∧ Key.2 = Attribute.None
    · simp [h1]
    · by_cases h2 : bundleHasArgument B ABA_Argument
      · simp only [h1, if_false, h2, Bool.not_true, Bool.false_eq_true]
        cases hV : getValueFromBundleOpInfo A B ABA_Argument with
        | none => simp
        | some v =>
          cases v with
          | named id => simp
          | constInt n =>
            cases hG : mapGet m Key A with
            | none => simp [applyFillOp, hG]
            | some mm => simp [applyFillOp, hG]
      · simp [h1, h2, applyFillOp]

/-- The trace of cell writes an entire run performs, in order; `none` when
some iteration is fatal. -/
def bundleEffects (kindOf : String → Nat) (A : CallInst) :
    List BundleOpInfo → Option (List (RKKey × FillOp))
  | [] => some []
  | b :: rest =>
    match bundleEffect kindOf A b with
    | Option.none => Option.none
    | some Option.none => bundleEffects kindOf A rest
    | some (some e) => (bundleEffects kindOf A rest).map (e :: ·)

/-- Replay a trace of cell writes against a map. -/
def applyEffects (A : CallInst) (m : RetainedKnowledgeMap)
    (es : List (RKKey × FillOp)) : RetainedKnowledgeMap :=
  es.foldl (fun m e => mapSet m e.1 A (applyFillOp e.2 (mapGet m e.1 A))) m

/-- Replay a trace of operations against a single cell. -/
def applyFillOps (s : Option MinMax) (ops : List FillOp) : Option MinMax :=
  ops.foldl (fun s o => some (applyFillOp o s)) s

theorem foldlM_fillMapStep_eq_effects (kindOf : String → Nat) (A : CallInst) :
    ∀ (bs : List BundleOpInfo) (m m' : RetainedKnowledgeMap),
      List.foldlM (fillMapStep kindOf A) m bs = some m' →
      ∃ es, bundleEffects kindOf A bs = some es ∧ m' = applyEffects A m es := by
  intro bs
  induction bs with
  | nil => intro m m' h; exact ⟨[], rfl, by simpa [applyEffects] using h.symm⟩
  | cons b rest ih =>
    intro m m' h
    rw [List.foldlM_cons] at h
    rw [fillMapStep_eq_effect] at h
    cases hE : bundleEffect kindOf A b with
    | none => rw [hE] at h; exact absurd h (by simp)
    | some eo =>
      cases eo with
      | none =>
        rw [hE] at h
        obtain ⟨es, hes, hm⟩ := ih m m' (by simpa using h)
        exact ⟨es, by simp [bundleEffects, hE, hes], hm⟩
      | some e =>
        rw [hE] at h
        obtain ⟨k, o⟩ := e
        obtain ⟨es, hes, hm⟩ :=
          ih (mapSet m k A (applyFillOp o (mapGet m k A))) m' (by simpa using h)
        refine ⟨(k, o) :: es, by simp [bundleEffects, hE, hes], ?_⟩
        simpa [applyEffects] using hm

theorem fillMapFromAssume_eq_effects (kindOf : String → Nat) (A : CallInst)
    (m m' : RetainedKnowledgeMap)
    (h : fillMapFromAssume kindOf A m = some m') :
    ∃ es, bundleEffects kindOf A A.bundles = some es ∧
      m' = applyEffects A m es :=
  foldlM_fillMapStep_eq_effects kindOf A A.bundles m m' h

theorem mapGet_applyEffects (A : CallInst) :
    ∀ (es : List (RKKey × FillOp)) (m : RetainedKnowledgeMap)
      (k : RKKey) (a : CallInst),
      mapGet (applyEffects A m es) k a =
        if a = A then
          applyFillOps (mapGet m k A)
            ((es.filter (fun e => decide (e.1 = k))).map (·.2))
        else mapGet m k a := by
  intro es
  induction es with
  | nil => intro m k a; rcases eq_or_ne a A with h | h <;> simp [applyEffects, applyFillOps, h]
  | cons e rest ih =>
    intro m k a
    obtain ⟨k₀, o₀⟩ := e
    have hstep : applyEffects A m ((k₀, o₀) :: rest) =
        applyEffects A (mapSet m k₀ A (applyFillOp o₀ (mapGet m k₀ A))) rest := rfl
    rw [hstep, ih]
    rcases eq_or_ne a A with ha | ha
    · rcases eq_or_ne k k₀ with hk | hk
      · simp [ha, hk, mapGet_mapSet, applyFillOps]
      · simp [ha, hk, Ne.symm hk, mapGet_mapSet]
    · simp [ha, mapGet_mapSet]

/-! Algebra of per-cell operation traces. -/

theorem applyFillOps_nil (s : Option MinMax) : applyFillOps s [] = s := rfl

theorem applyFillOps_cons (s : Option MinMax) (o : FillOp) (ops : List FillOp) :
    applyFillOps s (o :: ops) = applyFillOps (some (applyFillOp o s)) ops := rfl

theorem applyFillOps_append (s : Option MinMax) (l₁ l₂ : List FillOp) :
    applyFillOps s (l₁ ++ l₂) = applyFillOps (applyFillOps s l₁) l₂ :=
  List.foldl_append _ _ _ _

/-- Every cell a fill operation writes satisfies `Min ≤ Max`. -/
theorem applyFillOp_ok (o : FillOp) (s : Option MinMax) :
    (applyFillOp o s).Min ≤ (applyFillOp o s).Max := by
  cases o with
  | set0 => exact Nat.le_refl 0
  | val v =>
    cases s with
    | none => exact Nat.le_refl v
    | some mm =>
      exact Nat.le_trans (min_le_left v mm.Min) (le_max_left v mm.Max)

/-- `Min ≤ Max` for whatever a cell holds (vacuous for an absent cell). -/
def cellOk : Option MinMax → Prop
  | Option.none => True
  | some mm => mm.Min ≤ mm.Max

theorem cellOk_applyFillOps (ops : List FillOp) :
    ∀ s : Option MinMax, cellOk s → cellOk (applyFillOps s ops) := by
  induction ops with
  | nil => intro s hs; exact hs
  | cons o rest ih =>
    intro s _
    rw [applyFillOps_cons]
    exact ih (some (applyFillOp o s)) (applyFillOp_ok o s)

/-- A trace free of `(0, 0)` overwrites only widens an existing cell. -/
theorem applyFillOps_widens (ops : List FillOp) :
    ∀ mm mm' : MinMax, FillOp.set0 ∉ ops →
      applyFillOps (some mm) ops = some mm' →
      mm'.Min ≤ mm.Min ∧ mm.Max ≤ mm'.Max := by
  induction ops with
  | nil =>
    intro mm mm' _ h
    cases h
    exact ⟨Nat.le_refl _, Nat.le_refl _⟩
  | cons o rest ih =>
    intro mm mm' hn h
    cases o with
    | set0 => exact absurd (List.mem_cons_self _ _) hn
    | val v =>
      rw [applyFillOps_cons] at h
      have hmid := ih ⟨min v mm.Min, max v mm.Max⟩ mm'
        (fun hm => hn (List.mem_cons_of_mem _ hm)) h
      exact ⟨Nat.le_trans hmid.1 (min_le_right v mm.Min),
        Nat.le_trans (le_max_right v mm.Max) hmid.2⟩

/-- Every value occurring in a `set0`-free trace ends up inside the final
interval. -/
theorem applyFillOps_bounds (ops : List FillOp) :
    ∀ (s : Option MinMax) (mm : MinMax), FillOp.set0 ∉ ops →
      applyFillOps s ops = some mm →
      ∀ v, FillOp.val v ∈ ops → mm.Min ≤ v ∧ v ≤ mm.Max := by
  induction ops with
  | nil => intro s mm _ _ v hv; exact absurd hv (List.not_mem_nil _)
  | cons o rest ih =>
    intro s mm hn h v hv
    have hn' : FillOp.set0 ∉ rest := fun hm => hn (List.mem_cons_of_mem _ hm)
    rw [applyFillOps_cons] at h
    rcases List.mem_cons.mp hv with hv | hv
    · subst hv
      have hin : (applyFillOp (FillOp.val v) s).Min ≤ v ∧
          v ≤ (applyFillOp (FillOp.val v) s).Max := by
        cases s with
        | none => exact ⟨Nat.le_refl v, Nat.le_refl v⟩
        | some mm₀ =>
          exact ⟨min_le_left v mm₀.Min, le_max_left v mm₀.Max⟩
      have hw := applyFillOps_widens rest _ mm hn' h
      exact ⟨Nat.le_trans hw.1 hin.1, Nat.le_trans hin.2 hw.2⟩
    · exact ih _ mm hn' h v hv

/-- A nonempty trace always produces a present cell. -/
theorem applyFillOps_isSome (ops : List FillOp) :
    ∀ mm : MinMax, ∃ mm', applyFillOps (some mm) ops = some mm' := by
  induction ops with
  | nil => intro mm; exact ⟨mm, rfl⟩
  | cons o rest ih =>
    intro mm
    rw [applyFillOps_cons]
    exact ih (applyFillOp o (some mm))

/-- A `set0`-free trace whose values already lie inside the cell's interval
leaves the cell unchanged. -/
theorem applyFillOps_stable (ops : List FillOp) :
    ∀ mm : MinMax, FillOp.set0 ∉ ops →
      (∀ v, FillOp.val v ∈ ops → mm.Min ≤ v ∧ v ≤ mm.Max) →
      applyFillOps (some mm) ops = some mm := by
  induction ops with
  | nil => intro mm _ _; rfl
  | cons o rest ih =>
    intro mm hn hb
    cases o with
    | set0 => exact absurd (List.mem_cons_self _ _) hn
    | val v =>
      have hv := hb v (List.mem_cons_self _ _)
      rw [applyFillOps_cons]
      have : applyFillOp (FillOp.val v) (some mm) = mm := by
        show (⟨min v mm.Min, max v mm.Max⟩ : MinMax) = mm
        cases mm with
        | mk mn mx =>
          simp only [MinMax.mk.injEq]
          exact ⟨min_eq_right hv.1, max_eq_right hv.2⟩
      rw [this]
      exact ih mm (fun hm => hn (List.mem_cons_of_mem _ hm))
        (fun w hw => hb w (List.mem_cons_of_mem _ hw))

/-- Split a list at the last occurrence of an element. -/
theorem exists_last_split {α : Type} [DecidableEq α] (x : α) :
    ∀ l : List α, x ∈ l → ∃ l₁ l₂, l = l₁ ++ x :: l₂ ∧ x ∉ l₂ := by
  intro l
  induction l with
  | nil => intro h; exact absurd h (List.not_mem_nil x)
  | cons a t ih =>
    intro _
    by_cases hx : x ∈ t
    · obtain ⟨t₁, t₂, ht, hn⟩ := ih hx
      exact ⟨a :: t₁, t₂, by rw [ht]; rfl, hn⟩
    · have hxa : x = a := by
        rcases List.mem_cons.mp (by assumption) with h | h
        · exact h
        · exact absurd h hx
      exact ⟨[], t, by simp [hxa], hx⟩

/-- Replaying a trace over its own result changes nothing. -/
theorem applyFillOps_idem (ops : List FillOp) (s : Option MinMax) :
    applyFillOps (applyFillOps s ops) ops = applyFillOps s ops := by
  by_cases hs : FillOp.set0 ∈ ops
  · obtain ⟨l₁, l₂, hsplit, hn⟩ := exists_last_split FillOp.set0 ops hs
    subst hsplit
    have key : ∀ t : Option MinMax,
        applyFillOps t (l₁ ++ FillOp.set0 :: l₂) =
          applyFillOps (some ⟨0, 0⟩) l₂ := by
      intro t
      rw [applyFillOps_append, applyFillOps_cons]
      rfl
    rw [key, key]
  · cases ops with
    | nil => rfl
    | cons o rest =>
      have h1 : ∃ mm, applyFillOps s (o :: rest) = some mm := by
        rw [applyFillOps_cons]
        exact applyFillOps_isSome rest (applyFillOp o s)
      obtain ⟨mm, hmm⟩ := h1
      rw [hmm]
      exact applyFillOps_stable (o :: rest) mm hs
        (applyFillOps_bounds (o :: rest) s mm hs hmm)

/-- Replaying a `set0`-free trace is order-insensitive. -/
theorem applyFillOps_perm {l₁ l₂ : List FillOp} (h : l₁.Perm l₂)
    (hn : FillOp.set0 ∉ l₁) (s : Option MinMax) :
    applyFillOps s l₁ = applyFillOps s l₂ := by
  induction h generalizing s with
  | nil => rfl
  | cons x h ih =>
    rw [applyFillOps_cons, applyFillOps_cons]
    exact ih (fun hm => hn (List.mem_cons_of_mem x hm)) _
  | swap x y l =>
    have hx : x ≠ FillOp.set0 := fun e => hn (by rw [e]; simp)
    have hy : y ≠ FillOp.set0 := fun e => hn (by rw [e]; simp)
    rw [applyFillOps_cons, applyFillOps_cons, applyFillOps_cons,
      applyFillOps_cons]
    cases x with
    | set0 => exact absurd rfl hx
    | val vx =>
      cases y with
      | set0 => exact absurd rfl hy
      | val vy =>
        have hswap : applyFillOp (FillOp.val vx)
            (some (applyFillOp (FillOp.val vy) s)) =
            applyFillOp (FillOp.val vy)
              (some (applyFillOp (FillOp.val vx) s)) := by
          cases s with
          | none =>
            show (⟨min vx vy, max vx vy⟩ : MinMax) =
              ⟨min vy vx, max vy vx⟩
            rw [min_comm, max_comm]
          | some mm =>
            show (⟨min vx (min vy mm.Min),
                max vx (max vy mm.Max)⟩ : MinMax) =
              ⟨min vy (min vx mm.Min), max vy (max vx mm.Max)⟩
            rw [min_left_comm, max_left_comm]
        rw [hswap]
  | trans h1 h2 ih1 ih2 =>
    exact (ih1 hn s).trans (ih2 (fun hm => hn (h1.mem_iff.mpr hm)) s)

/-! Small shared helper lemmas. -/

theorem slotCount_eq_sub (B : BundleOpInfo) (h1 : B.Begin ≤ B.End)
    (h2 : B.End < W32) : B.slotCount = B.End - B.Begin := by
  unfold BundleOpInfo.slotCount usub32
  have hb : B.Begin < W32 := Nat.lt_of_le_of_lt h1 h2
  rw [Nat.mod_eq_of_lt h2, Nat.mod_eq_of_lt hb]
  unfold W32 at *
  omega

/-- Under IR well-formedness, an in-bounds slot read succeeds. -/
theorem wf_read (c : CallInst) (B : BundleOpInfo)
    (h1 : B.Begin ≤ B.End) (h2 : B.End ≤ c.operands.length)
    (h3 : B.End < W32) (i : Nat) (h : bundleHasArgument B i = true) :
    ∃ v, getValueFromBundleOpInfo c B i = some v := by
  have hcount : B.slotCount > i := by
    have := of_decide_eq_true h
    exact this
  rw [slotCount_eq_sub B h1 h3] at hcount
  have hlt : B.Begin + i < c.operands.length := by omega
  unfold getValueFromBundleOpInfo
  rw [h]
  simp only [if_true]
  have : c.operands[B.Begin + i]? ≠ Option.none := by
    intro hnone
    rw [List.getElem?_eq_none_iff] at hnone
    omega
  exact Option.ne_none_iff_exists'.mp this

theorem toBool_ne_none (rk : RetainedKnowledge) (h : rk.toBool = true) :
    rk ≠ RetainedKnowledge.none := by
  intro e
  rw [e] at h
  exact absurd h (by decide)

/-- Whatever the indexed path returns is the sentinel or a truthy knowledge
of a wanted kind. -/
theorem knowledgeFromCache_spec (kindOf : String → Nat) (kinds : List Nat)
    (F : RetainedKnowledge → CallInst → BundleOpInfo → Bool) :
    ∀ (cache : List ResultElem) (rk : RetainedKnowledge),
      knowledgeFromCache kindOf kinds F cache = some rk →
      rk = RetainedKnowledge.none ∨
        (rk.toBool = true ∧ kinds.contains rk.AttrKind = true) := by
  intro cache
  induction cache with
  | nil =>
    intro rk h
    cases h
    exact Or.inl rfl
  | cons Elem rest ih =>
    intro rk h
    unfold knowledgeFromCache at h
    split at h
    · exact ih rk h
    · split at h
      · exact ih rk h
      · split at h
        · exact absurd h (by simp)
        · split at h
          · exact absurd h (by simp)
          · split at h
            · rename_i RK hk hg
              cases h
              simp only [Bool.and_eq_true] at hg
              exact Or.inr ⟨hg.1.1, hg.1.2⟩
            · exact ih rk h

/-- Whatever the fallback path returns is the sentinel or a truthy
knowledge of a wanted kind. -/
theorem knowledgeFromUses_spec (kindOf : String → Nat) (kinds : List Nat)
    (F : RetainedKnowledge → CallInst → BundleOpInfo → Bool) :
    ∀ (uses : List Use) (rk : RetainedKnowledge),
      knowledgeFromUses kindOf kinds F uses = some rk →
      rk = RetainedKnowledge.none ∨
        (rk.toBool = true ∧ kinds.contains rk.AttrKind = true) := by
  intro uses
  induction uses with
  | nil =>
    intro rk h
    cases h
    exact Or.inl rfl
  | cons U rest ih =>
    intro rk h
    unfold knowledgeFromUses at h
    split at h
    · exact ih rk h
    · split at h
      · exact absurd h (by simp)
      · split at h
        · exact absurd h (by simp)
        · split at h
          · rename_i RK hk hg
            cases h
            simp only [Bool.and_eq_true] at hg
            exact Or.inr ⟨hg.1.1, hg.1.2⟩
          · exact ih rk h

/-! Shared concrete example data. -/

/-- An example attribute-kind registry: "align" ↦ 1, "nonnull" ↦ 2, anything
else unrecognized. -/
def exKindOf : String → Nat :=
  fun t => if t = "align" then 1 else if t = "nonnull" then 2 else 0

/-- An assume `assume(%c0) ["align"(%v1, %v2)]` whose bundle mentions two
plain values. -/
def exAssume : CallInst :=
  ⟨[Value.named 0, Value.named 1, Value.named 2], [⟨"align", 1, 3⟩]⟩

/-! ## Claim C7 — slot-bounds invariant of the bundle accessor -/

/-- C7: for every bundle `B` and index `i`, `bundleHasArgument B i` is true
iff `B`'s slot count (`End - Begin`, computed in `unsigned`) exceeds `i`
(and under IR well-formedness the slot count is the plain difference
`End - Begin`); `getValueFromBundleOpInfo` called when the predicate is
false is detected as a fatal assertion failure (`none`) rather than
returning a wrong value. -/
theorem bundleHasArgument_slot_bounds (A : CallInst) (B : BundleOpInfo)
    (i : Nat) :
    (bundleHasArgument B i = true ↔ B.slotCount > i) ∧
    (B.Begin ≤ B.End → B.End < W32 → B.slotCount = B.End - B.Begin) ∧
    (bundleHasArgument B i = false →
      getValueFromBundleOpInfo A B i = Option.none) := by
  refine ⟨by simp [bundleHasArgument], fun h1 h2 => slotCount_eq_sub B h1 h2, ?_⟩
  intro h
  unfold getValueFromBundleOpInfo
  rw [h]
  rfl

theorem bundleHasArgument_slot_bounds_witness :
    (bundleHasArgument ⟨"align", 1, 3⟩ 1 = true ↔
      BundleOpInfo.slotCount ⟨"align", 1, 3⟩ > 1) ∧
    BundleOpInfo.slotCount ⟨"align", 1, 3⟩ = 3 - 1 ∧
    getValueFromBundleOpInfo exAssume ⟨"align", 1, 3⟩ 5 = Option.none :=
  ⟨(bundleHasArgument_slot_bounds exAssume ⟨"align", 1, 3⟩ 1).1,
   (bundleHasArgument_slot_bounds exAssume ⟨"align", 1, 3⟩ 1).2.1
     (by decide) (by decide),
   (bundleHasArgument_slot_bounds exAssume ⟨"align", 1, 3⟩ 5).2.2 (by decide)⟩

/-! ## Claim C8 — emptiness test -/

/-- C8: `isAssumeWithEmptyBundle` returns true iff every bundle of the
assumption carries the distinguished ignore tag; in particular it returns
true for an assumption with zero bundles. -/
theorem isAssumeWithEmptyBundle_iff (c : CallInst) :
    (isAssumeWithEmptyBundle c = true ↔
      ∀ B ∈ c.bundles, B.Tag = IgnoreBundleTag) ∧
    (c.bundles = [] → isAssumeWithEmptyBundle c = true) := by
  constructor
  · unfold isAssumeWithEmptyBundle
    simp [List.any_eq_true]
  · intro h
    unfold isAssumeWithEmptyBundle
    rw [h]
    rfl

theorem isAssumeWithEmptyBundle_iff_witness :
    ((isAssumeWithEmptyBundle ⟨[Value.named 0], []⟩ = true ↔
      ∀ B ∈ (⟨[Value.named 0], []⟩ : CallInst).bundles,
        B.Tag = IgnoreBundleTag) ∧
     isAssumeWithEmptyBundle ⟨[Value.named 0], []⟩ = true) :=
  ⟨(isAssumeWithEmptyBundle_iff ⟨[Value.named 0], []⟩).1,
   (isAssumeWithEmptyBundle_iff ⟨[Value.named 0], []⟩).2 rfl⟩

/-! ## Claim C1 — use-site resolution and the WasOn slot -/

/-- C1 (counterexample): for the assume `assume(%c0) ["align"(%v1, %v2)]`,
the use-edge at the WasOn slot (operand 1, holding `%v1`) does NOT resolve
to the none sentinel: `getBundleFromUse` returns the owning bundle, because
the only use the matcher excludes is one whose used value equals the
assume's condition operand — not the WasOn slot. -/
theorem getBundleFromUse_wasOn_cex :
    getValueFromBundleOpInfo exAssume ⟨"align", 1, 3⟩ ABA_WasOn
      = some (Value.named 1) ∧
    getValueFromBundleOpInfo exAssume ⟨"align", 1, 3⟩ ABA_Argument
      = some (Value.named 2) ∧
    Use.get ⟨Instruction.assume exAssume, 1⟩ = some (Value.named 1) ∧
    getBundleFromUse ⟨Instruction.assume exAssume, 1⟩ = some ⟨"align", 1, 3⟩ ∧
    getBundleFromUse ⟨Instruction.assume exAssume, 1⟩ ≠ Option.none ∧
    getBundleFromUse ⟨Instruction.assume exAssume, 2⟩ = some ⟨"align", 1, 3⟩ := by
  decide

/-- C1 (amended): `getBundleFromUse` resolves a use-edge inside an assume to
its owning bundle whenever the used value differs from the assume's
condition operand — including the use-edge at the WasOn slot; it returns
the none sentinel exactly when the used value IS the condition operand
(besides non-assume users and positions outside every bundle). -/
theorem getBundleFromUse_excludes_condition_only (c : CallInst) (n : Nat)
    (used cond : Value) (hc : c.operands[0]? = some cond)
    (hu : c.operands[n]? = some used) :
    (used ≠ cond →
      getBundleFromUse ⟨Instruction.assume c, n⟩ =
        c.getBundleOpInfoForOperand n) ∧
    (used = cond →
      getBundleFromUse ⟨Instruction.assume c, n⟩ = Option.none) := by
  constructor <;> intro h <;> simp [getBundleFromUse, Use.get, hc, hu, h]

theorem getBundleFromUse_excludes_condition_only_witness :
    getBundleFromUse ⟨Instruction.assume exAssume, 1⟩ =
      CallInst.getBundleOpInfoForOperand exAssume 1 ∧
    getBundleFromUse ⟨Instruction.assume exAssume, 0⟩ = Option.none :=
  ⟨(getBundleFromUse_excludes_condition_only exAssume 1 (Value.named 1)
      (Value.named 0) (by decide) (by decide)).1 (by decide),
   (getBundleFromUse_excludes_condition_only exAssume 0 (Value.named 0)
      (Value.named 0) (by decide) (by decide)).2 rfl⟩

/-! ## Claim C5 — kind filtering in the value-wide search -/

/-- C5: on both the indexed path and the use-scan fallback path,
`getKnowledgeForValue` never returns a Retained Knowledge whose kind lies
outside the wanted-kind set — any non-sentinel result has its kind in the
set, even when facts of other kinds about the value are encountered earlier
in the scan. -/
theorem getKnowledgeForValue_kind_filtering (kindOf : String → Nat)
    (kinds : List Nat) (AC : Option (List ResultElem)) (uses : List Use)
    (Filter : RetainedKnowledge → CallInst → BundleOpInfo → Bool)
    (rk : RetainedKnowledge)
    (h : getKnowledgeForValue kindOf kinds AC uses Filter = some rk) :
    rk = RetainedKnowledge.none ∨ kinds.contains rk.AttrKind = true := by
  cases AC with
  | none =>
    rcases knowledgeFromUses_spec kindOf kinds Filter uses rk h with h1 | h1
    · exact Or.inl h1
    · exact Or.inr h1.2
  | some cache =>
    rcases knowledgeFromCache_spec kindOf kinds Filter cache rk h with h1 | h1
    · exact Or.inl h1
    · exact Or.inr h1.2

/-- An assume `assume(%c0) ["align"(%v1, 8)]`. -/
def exAlign8 : CallInst :=
  ⟨[Value.named 0, Value.named 1, Value.constInt 8], [⟨"align", 1, 3⟩]⟩

/-- An assume `assume(%c0) ["nonnull"(%v1)]`. -/
def exNonnull : CallInst :=
  ⟨[Value.named 0, Value.named 1], [⟨"nonnull", 1, 2⟩]⟩

/-- An Assumption Index for `%v1` listing the align fact then the nonnull
fact. -/
def exCache : List ResultElem := [⟨some exAlign8, 0⟩, ⟨some exNonnull, 0⟩]

/-- The use list of `%v1`, visiting the nonnull fact first. -/
def exUses : List Use :=
  [⟨Instruction.assume exNonnull, 1⟩, ⟨Instruction.assume exAlign8, 1⟩]

theorem getKnowledgeForValue_kind_filtering_witness :
    (⟨2, some (Value.named 1), Option.none⟩ : RetainedKnowledge)
        = RetainedKnowledge.none ∨
      List.contains [2]
        (RetainedKnowledge.AttrKind ⟨2, some (Value.named 1), Option.none⟩)
        = true :=
  getKnowledgeForValue_kind_filtering exKindOf [2] (some exCache) exUses
    (fun _ _ _ => true) ⟨2, some (Value.named 1), Option.none⟩ (by decide)

/-! ## Claim C10 — the truthiness guard and the none sentinel -/

/-- C10 (counterexample): `getKnowledgeFromUse` does NOT discard falsy
knowledge before its kind-membership test: for a bundle with an
unrecognized tag (decoded kind = none sentinel) mentioning `%v1`, a query
whose wanted-kind set contains the none sentinel receives a knowledge of
kind `Attribute.None` that differs from the sentinel value (its WasOn field
is populated). -/
theorem getKnowledgeFromUse_none_kind_cex :
    getKnowledgeFromUse exKindOf
        ⟨Instruction.assume ⟨[Value.named 0, Value.named 1],
          [⟨"mystery", 1, 2⟩]⟩, 1⟩ [Attribute.None]
      = some ⟨Attribute.None, some (Value.named 1), Option.none⟩ ∧
    (⟨Attribute.None, some (Value.named 1), Option.none⟩ : RetainedKnowledge)
      ≠ RetainedKnowledge.none ∧
    RetainedKnowledge.toBool
      ⟨Attribute.None, some (Value.named 1), Option.none⟩ = false := by
  decide

/-- C10 (amended): in `getKnowledgeForValue` (both paths) candidates whose
decoded knowledge is falsy are discarded before the kind-membership test,
so every returned knowledge other than the sentinel value has a kind
different from the none sentinel even when that sentinel is in the
wanted-kind set; `getKnowledgeFromUse`, by contrast, performs no such
discard (see the counterexample). -/
theorem getKnowledgeForValue_truthy_guard (kindOf : String → Nat)
    (kinds : List Nat) (AC : Option (List ResultElem)) (uses : List Use)
    (Filter : RetainedKnowledge → CallInst → BundleOpInfo → Bool)
    (rk : RetainedKnowledge)
    (h : getKnowledgeForValue kindOf kinds AC uses Filter = some rk)
    (hne : rk ≠ RetainedKnowledge.none) :
    rk.AttrKind ≠ Attribute.None := by
  have hspec : rk = RetainedKnowledge.none ∨
      (rk.toBool = true ∧ kinds.contains rk.AttrKind = true) := by
    cases AC with
    | none => exact knowledgeFromUses_spec kindOf kinds Filter uses rk h
    | some cache => exact knowledgeFromCache_spec kindOf kinds Filter cache rk h
  rcases hspec with h1 | h1
  · exact absurd h1 hne
  · exact of_decide_eq_true h1.1

theorem getKnowledgeForValue_truthy_guard_witness :
    RetainedKnowledge.AttrKind
        (⟨1, some (Value.named 1), some 8⟩ : RetainedKnowledge)
      ≠ Attribute.None :=
  getKnowledgeForValue_truthy_guard exKindOf [Attribute.None, 1]
    (some exCache) exUses (fun _ _ _ => true)
    ⟨1, some (Value.named 1), some 8⟩ (by decide) (by decide)

/-! ## Claim C3 — first-match order of the attribute-presence query -/

/-- The matching predicate of the `hasAttributeInAssume` scan: tag equality
plus, when `IsOn` was supplied, presence and equality of the WasOn slot. -/
def assumeBundleMatches (Assume : CallInst) (IsOn : Option Value)
    (AttrName : String) (BOI : BundleOpInfo) : Bool :=
  decide (BOI.Tag = AttrName) &&
    (match IsOn with
     | Option.none => true
     | some v =>
       bundleHasArgument BOI ABA_WasOn &&
         decide (getValueFromBundleOpInfo Assume BOI ABA_WasOn = some v))

/-- The scan loop returns the found-result of the first matching bundle. -/
theorem hasAttributeInAssumeLoop_eq_found (c : CallInst) (IsOn : Option Value)
    (AttrName : String) (wantArg : Bool) :
    ∀ bs : List BundleOpInfo,
      (∀ B ∈ bs, B.Begin ≤ B.End ∧ B.End ≤ c.operands.length ∧ B.End < W32) →
      ∀ B, bs.find? (assumeBundleMatches c IsOn AttrName) = some B →
        hasAttributeInAssumeLoop c IsOn AttrName wantArg bs =
          hasAttributeInAssumeFound c B wantArg := by
  intro bs
  induction bs with
  | nil => intro _ B hB; cases hB
  | cons B0 rest ih =>
    intro hwf B hB
    have hwfr : ∀ B ∈ rest,
        B.Begin ≤ B.End ∧ B.End ≤ c.operands.length ∧ B.End < W32 :=
      fun B hm => hwf B (List.mem_cons_of_mem _ hm)
    by_cases hm : assumeBundleMatches c IsOn AttrName B0 = true
    · rw [List.find?_cons_of_pos _ hm] at hB
      cases hB
      unfold assumeBundleMatches at hm
      simp only [Bool.and_eq_true, decide_eq_true_eq] at hm
      cases hIs : IsOn with
      | none => simp [hasAttributeInAssumeLoop, hm.1]
      | some v =>
        rw [hIs] at hm
        simp only [Bool.and_eq_true, decide_eq_true_eq] at hm
        have hslot : ¬ B0.slotCount ≤ ABA_WasOn := by
          have := of_decide_eq_true hm.2.1
          omega
        simp [hasAttributeInAssumeLoop, hm.1, hslot, hm.2.2]
    · rw [List.find?_cons_of_neg _ hm] at hB
      unfold assumeBundleMatches at hm
      simp only [Bool.and_eq_true, decide_eq_true_eq, not_and] at hm
      by_cases ht : B0.Tag = AttrName
      · cases hIs : IsOn with
        | none =>
          exfalso
          exact hm ht (by rw [hIs])
        | some v =>
          have hm2 : ¬ (bundleHasArgument B0 ABA_WasOn = true ∧
              getValueFromBundleOpInfo c B0 ABA_WasOn = some v) := by
            intro hcon
            apply hm ht
            rw [hIs]
            simp [hcon.1, hcon.2]
          by_cases hhas : bundleHasArgument B0 ABA_WasOn = true
          · have hslot : ¬ B0.slotCount ≤ ABA_WasOn := by
              have := of_decide_eq_true hhas
              omega
            have hwf0 := hwf B0 (List.mem_cons_self _ _)
            obtain ⟨w, hw⟩ := wf_read c B0 hwf0.1 hwf0.2.1 hwf0.2.2
              ABA_WasOn hhas
            have hvw : v ≠ w := by
              intro e
              exact hm2 ⟨hhas, by rw [hw, e]⟩
            rw [show hasAttributeInAssumeLoop c (some v) AttrName wantArg
                (B0 :: rest) = hasAttributeInAssumeLoop c (some v) AttrName
                wantArg rest from by
              simp [hasAttributeInAssumeLoop, ht, hslot, hw, hvw]]
            rw [hIs] at hB ih
            exact ih hwfr B hB
          · have hslot : B0.slotCount ≤ ABA_WasOn := by
              by_contra hc2
              exact hhas (decide_eq_true (by omega))
            rw [show hasAttributeInAssumeLoop c (some v) AttrName wantArg
                (B0 :: rest) = hasAttributeInAssumeLoop c (some v) AttrName
                wantArg rest from by
              simp [hasAttributeInAssumeLoop, ht, hslot]]
            rw [hIs] at hB ih
            exact ih hwfr B hB
      · rw [show hasAttributeInAssumeLoop c IsOn AttrName wantArg
            (B0 :: rest) = hasAttributeInAssumeLoop c IsOn AttrName
            wantArg rest from by simp [hasAttributeInAssumeLoop, ht]]
        exact ih hwfr B hB

/-- C3: for every assume, `hasAttributeInAssume` returns true and writes
the Argument value of the FIRST bundle (in the assumption's stored bundle
order) matching the tag and the optional `IsOn` constraint — not the last
match and not any min/max aggregate. -/
theorem hasAttributeInAssume_first_match (c : CallInst) (IsOn : Option Value)
    (AttrName : String) (B : BundleOpInfo) (v : Nat)
    (hwf : c.WellFormed)
    (hfind : c.bundles.find? (assumeBundleMatches c IsOn AttrName) = some B)
    (harg : getValueFromBundleOpInfo c B ABA_Argument
      = some (Value.constInt v)) :
    hasAttributeInAssume c IsOn AttrName true = some (true, some v) := by
  have hne : c.bundles.isEmpty = false := by
    cases hbs : c.bundles with
    | nil => rw [hbs] at hfind; cases hfind
    | cons x xs => rfl
  unfold hasAttributeInAssume
  rw [hne]
  simp only [Bool.false_eq_true, if_false]
  rw [hasAttributeInAssumeLoop_eq_found c IsOn AttrName true c.bundles hwf
    B hfind]
  have hhas : bundleHasArgument B ABA_Argument = true := by
    by_contra hc2
    unfold getValueFromBundleOpInfo at harg
    rw [Bool.not_eq_true] at hc2
    rw [hc2] at harg
    cases harg
  unfold hasAttributeInAssumeFound
  rw [if_pos rfl, if_pos hhas, harg]

/-- An assume `assume(%c0) ["align"(%v1, 8), "align"(%v1, 16)]`. -/
def exTwoAlign : CallInst :=
  ⟨[Value.named 0, Value.named 1, Value.constInt 8, Value.named 1,
    Value.constInt 16],
   [⟨"align", 1, 3⟩, ⟨"align", 3, 5⟩]⟩

theorem hasAttributeInAssume_first_match_witness :
    hasAttributeInAssume exTwoAlign (some (Value.named 1)) "align" true
      = some (true, some 8) :=
  hasAttributeInAssume_first_match exTwoAlign (some (Value.named 1)) "align"
    ⟨"align", 1, 3⟩ 8 (by decide) (by decide) (by decide)

/-! ## Claim C6 — degenerate encoding of argument-less bundles -/

/-- C6: a bundle with a non-empty key and no Argument slot is recorded in
the knowledge map as the degenerate pair `(0, 0)` — exactly the pair that a
bundle carrying an explicit literal argument `0` produces on a fresh cell,
so the two are indistinguishable in the map. -/
theorem fillMapFromAssume_degenerate_zero :
    (∀ (kindOf : String → Nat) (A : CallInst) (m m' : RetainedKnowledgeMap)
       (B : BundleOpInfo) (k : RKKey),
      fillMapStep kindOf A m B = some m' →
      bundleHasArgument B ABA_Argument = false →
      fillMapKey kindOf A B = some k →
      ¬(k.1 = Option.none ∧ k.2 = Attribute.None) →
      mapGet m' k A = some ⟨0, 0⟩) ∧
    (∀ (kindOf : String → Nat) (A : CallInst) (m m' : RetainedKnowledgeMap)
       (B : BundleOpInfo) (k : RKKey),
      fillMapStep kindOf A m B = some m' →
      fillMapKey kindOf A B = some k →
      ¬(k.1 = Option.none ∧ k.2 = Attribute.None) →
      getValueFromBundleOpInfo A B ABA_Argument = some (Value.constInt 0) →
      mapGet m k A = Option.none →
      mapGet m' k A = some ⟨0, 0⟩) := by
  constructor
  · intro kindOf A m m' B k hstep hno hkey hk
    simp only [fillMapStep, hkey] at hstep
    rw [if_neg hk, hno] at hstep
    simp only [Bool.not_false, if_true] at hstep
    cases hstep
    simp [mapGet_mapSet]
  · intro kindOf A m m' B k hstep hkey hk harg hmiss
    have hhas : bundleHasArgument B ABA_Argument = true := by
      by_contra hc2
      rw [Bool.not_eq_true] at hc2
      unfold getValueFromBundleOpInfo at harg
      rw [hc2] at harg
      cases harg
    simp only [fillMapStep, hkey] at hstep
    rw [if_neg hk, hhas] at hstep
    simp only [Bool.not_true, Bool.false_eq_true, if_false, harg, hmiss,
      Nat.zero_mod] at hstep
    cases hstep
    simp [mapGet_mapSet]

/-- An assume `assume(%c0) ["align"(%v1, 8), "align"(%v1)]`: an
argument-bearing bundle followed by an argument-less one on the same
key. -/
def exNarrow : CallInst :=
  ⟨[Value.named 0, Value.named 1, Value.constInt 8, Value.named 1],
   [⟨"align", 1, 3⟩, ⟨"align", 3, 4⟩]⟩

/-- An assume `assume(%c0) ["align"(%v1, 0)]`. -/
def exZeroArg : CallInst :=
  ⟨[Value.named 0, Value.named 1, Value.constInt 0], [⟨"align", 1, 3⟩]⟩

theorem fillMapFromAssume_degenerate_zero_witness :
    mapGet [((some (Value.named 1), 1), [(exNarrow, ⟨0, 0⟩)])]
        (some (Value.named 1), 1) exNarrow = some ⟨0, 0⟩ ∧
    mapGet [((some (Value.named 1), 1), [(exZeroArg, ⟨0, 0⟩)])]
        (some (Value.named 1), 1) exZeroArg = some ⟨0, 0⟩ :=
  ⟨fillMapFromAssume_degenerate_zero.1 exKindOf exNarrow []
     [((some (Value.named 1), 1), [(exNarrow, ⟨0, 0⟩)])] ⟨"align", 3, 4⟩
     (some (Value.named 1), 1) (by decide) (by decide) (by decide)
     (by decide),
   fillMapFromAssume_degenerate_zero.2 exKindOf exZeroArg []
     [((some (Value.named 1), 1), [(exZeroArg, ⟨0, 0⟩)])] ⟨"align", 1, 3⟩
     (some (Value.named 1), 1) (by decide) (by decide) (by decide)
     (by decide) (by decide)⟩

/-! ## Claim C2 — the min/max invariant of the knowledge map -/

/-- C2 (counterexample): after the argument-bearing bundle
`"align"(%v1, 8)` the cell holds `(8, 8)`; the following argument-less
bundle `"align"(%v1)` overwrites the same cell with `(0, 0)` — the maximum
drops from 8 to 0, so an update of the pair by `fillMapFromAssume` can
narrow the interval, refuting "only ever widened, never narrowed". -/
theorem fillMapFromAssume_narrowing_cex :
    (fillMapStep exKindOf exNarrow [] ⟨"align", 1, 3⟩).map
        (fun m => mapGet m (some (Value.named 1), 1) exNarrow)
      = some (some ⟨8, 8⟩) ∧
    ((fillMapStep exKindOf exNarrow [] ⟨"align", 1, 3⟩).bind
        (fun m => fillMapStep exKindOf exNarrow m ⟨"align", 3, 4⟩)).map
        (fun m => mapGet m (some (Value.named 1), 1) exNarrow)
      = some (some ⟨0, 0⟩) ∧
    (fillMapFromAssume exKindOf exNarrow []).map
        (fun m => mapGet m (some (Value.named 1), 1) exNarrow)
      = some (some ⟨0, 0⟩) ∧
    ¬ (8 : Nat) ≤ 0 := by
  decide

/-- C2 (amended): for every cell of the knowledge map, `Min ≤ Max` always
holds after `fillMapFromAssume` (given it held before); and an update
performed for an argument-BEARING bundle only widens an existing pair
(lowers Min, raises Max).  An argument-less bundle, however, overwrites its
cell with `(0, 0)`, which can narrow it (see the counterexample). -/
theorem fillMapFromAssume_minmax_invariant :
    (∀ (kindOf : String → Nat) (A : CallInst) (m m' : RetainedKnowledgeMap),
      fillMapFromAssume kindOf A m = some m' →
      (∀ k a mm, mapGet m k a = some mm → mm.Min ≤ mm.Max) →
      (∀ k a mm, mapGet m' k a = some mm → mm.Min ≤ mm.Max)) ∧
    (∀ (kindOf : String → Nat) (A : CallInst) (m m' : RetainedKnowledgeMap)
       (B : BundleOpInfo) (k : RKKey) (a : CallInst) (mm mm' : MinMax),
      fillMapStep kindOf A m B = some m' →
      bundleHasArgument B ABA_Argument = true →
      mapGet m k a = some mm → mapGet m' k a = some mm' →
      mm'.Min ≤ mm.Min ∧ mm.Max ≤ mm'.Max) := by
  constructor
  · intro kindOf A m m' hfill hok k a mm hget
    obtain ⟨es, hes, hm'⟩ := fillMapFromAssume_eq_effects kindOf A m m' hfill
    subst hm'
    rw [mapGet_applyEffects] at hget
    by_cases ha : a = A
    · rw [if_pos ha] at hget
      have hstart : cellOk (mapGet m k A) := by
        cases hst : mapGet m k A with
        | none => trivial
        | some mm0 => exact hok k A mm0 hst
      have hres := cellOk_applyFillOps
        ((es.filter (fun e => decide (e.1 = k))).map (·.2))
        (mapGet m k A) hstart
      rw [hget] at hres
      exact hres
    · rw [if_neg ha] at hget
      exact hok k a mm hget
  · intro kindOf A m m' B k a mm mm' hstep hhas hget hget'
    rw [fillMapStep_eq_effect] at hstep
    cases hE : bundleEffect kindOf A B with
    | none => rw [hE] at hstep; cases hstep
    | some eo =>
      rw [hE] at hstep
      cases eo with
      | none =>
        cases hstep
        rw [hget] at hget'
        cases hget'
        exact ⟨Nat.le_refl _, Nat.le_refl _⟩
      | some e =>
        obtain ⟨k₀, o⟩ := e
        cases hstep
        have hval : ∃ v, o = FillOp.val v := by
          unfold bundleEffect at hE
          cases hkey : fillMapKey kindOf A B with
          | none => rw [hkey] at hE; cases hE
          | some Key =>
            simp only [hkey] at hE
            by_cases hsk : Key.1 = Option.none ∧ Key.2 = Attribute.None
            · rw [if_pos hsk] at hE; cases hE
            · rw [if_neg hsk, hhas] at hE
              simp only [Bool.not_true, Bool.false_eq_true, if_false] at hE
              cases hv : getValueFromBundleOpInfo A B ABA_Argument with
              | none => rw [hv] at hE; cases hE
              | some v =>
                cases v with
                | named id => rw [hv] at hE; simp at hE
                | constInt n =>
                  rw [hv] at hE
                  simp only [Option.some.injEq] at hE
                  exact ⟨n % W32, (congrArg Prod.snd hE).symm⟩
        obtain ⟨v, rfl⟩ := hval
        rw [mapGet_mapSet] at hget'
        by_cases hka : k = k₀ ∧ a = A
        · rw [if_pos hka] at hget'
          rw [← hka.1, ← hka.2, hget] at hget'
          cases hget'
          exact ⟨min_le_right v mm.Min, le_max_right v mm.Max⟩
        · rw [if_neg hka] at hget'
          rw [hget] at hget'
          cases hget'
          exact ⟨Nat.le_refl _, Nat.le_refl _⟩

theorem fillMapFromAssume_minmax_invariant_witness :
    (∀ k a mm,
      mapGet [((some (Value.named 1), 1), [(exZeroArg, ⟨0, 0⟩)])] k a
        = some mm → mm.Min ≤ mm.Max) ∧
    ((2 : Nat) ≤ 2 ∧ (8 : Nat) ≤ 8) := by
  constructor
  · exact fillMapFromAssume_minmax_invariant.1 exKindOf exZeroArg []
      [((some (Value.named 1), 1), [(exZeroArg, ⟨0, 0⟩)])] (by decide)
      (fun k a mm h => by rw [mapGet_nil] at h; cases h)
  · exact fillMapFromAssume_minmax_invariant.2 exKindOf exAlign8
      [((some (Value.named 1), 1), [(exAlign8, ⟨2, 8⟩)])]
      [((some (Value.named 1), 1), [(exAlign8, ⟨2, 8⟩)])] ⟨"align", 1, 3⟩
      (some (Value.named 1), 1) exAlign8 ⟨2, 8⟩ ⟨2, 8⟩ (by decide)
      (by decide) (by decide) (by decide)

/-! ## Claim C4 — idempotence and order-insensitivity of the
accumulation -/

/-- C4: running `fillMapFromAssume` a second time over the same assumption
and map leaves every (key, assumption) min/max pair unchanged; and a key
whose trace of cell writes consists of the argument values {5, 2, 9} (in
any order) ends at exactly `(2, 9)` when starting from an absent cell. -/
theorem fillMapFromAssume_idempotent_orderfree :
    (∀ (kindOf : String → Nat) (A : CallInst)
       (m m₁ m₂ : RetainedKnowledgeMap),
      fillMapFromAssume kindOf A m = some m₁ →
      fillMapFromAssume kindOf A m₁ = some m₂ →
      ∀ k a, mapGet m₂ k a = mapGet m₁ k a) ∧
    (∀ (kindOf : String → Nat) (A : CallInst) (m m' : RetainedKnowledgeMap)
       (k : RKKey) (es : List (RKKey × FillOp)),
      fillMapFromAssume kindOf A m = some m' →
      bundleEffects kindOf A A.bundles = some es →
      ((es.filter (fun e => decide (e.1 = k))).map (·.2)).Perm
        [FillOp.val 5, FillOp.val 2, FillOp.val 9] →
      mapGet m k A = Option.none →
      mapGet m' k A = some ⟨2, 9⟩) := by
  constructor
  · intro kindOf A m m₁ m₂ h1 h2 k a
    obtain ⟨es, hes, hm1⟩ := fillMapFromAssume_eq_effects kindOf A m m₁ h1
    obtain ⟨es₂, hes₂, hm2⟩ := fillMapFromAssume_eq_effects kindOf A m₁ m₂ h2
    rw [hes] at hes₂
    injection hes₂ with he
    subst he
    subst hm1
    subst hm2
    by_cases ha : a = A
    · subst ha
      simp only [mapGet_applyEffects, eq_self_iff_true, if_true]
      exact applyFillOps_idem _ _
    · rw [mapGet_applyEffects, if_neg ha, mapGet_applyEffects, if_neg ha]
  · intro kindOf A m m' k es hfill hes hperm hmiss
    obtain ⟨es₂, hes₂, hm'⟩ := fillMapFromAssume_eq_effects kindOf A m m' hfill
    rw [hes] at hes₂
    injection hes₂ with he
    subst he
    subst hm'
    simp only [mapGet_applyEffects, eq_self_iff_true, if_true]
    rw [hmiss]
    have hn : FillOp.set0 ∉
        (es.filter (fun e => decide (e.1 = k))).map (·.2) := by
      intro hmem
      have := hperm.mem_iff.mp hmem
      simp at this
    rw [applyFillOps_perm hperm hn]
    rfl

/-- An assume `assume(%c0) ["align"(%v1, 2), "align"(%v1, 9),
"align"(%v1, 5)]`. -/
def exScrambled : CallInst :=
  ⟨[Value.named 0, Value.named 1, Value.constInt 2, Value.named 1,
    Value.constInt 9, Value.named 1, Value.constInt 5],
   [⟨"align", 1, 3⟩, ⟨"align", 3, 5⟩, ⟨"align", 5, 7⟩]⟩

theorem fillMapFromAssume_idempotent_orderfree_witness :
    mapGet [((some (Value.named 1), 1), [(exAlign8, ⟨8, 8⟩)])]
        (some (Value.named 1), 1) exAlign8
      = mapGet [((some (Value.named 1), 1), [(exAlign8, ⟨8, 8⟩)])]
        (some (Value.named 1), 1) exAlign8 ∧
    mapGet [((some (Value.named 1), 1), [(exScrambled, ⟨2, 9⟩)])]
        (some (Value.named 1), 1) exScrambled = some ⟨2, 9⟩ :=
  ⟨fillMapFromAssume_idempotent_orderfree.1 exKindOf exAlign8 []
     [((some (Value.named 1), 1), [(exAlign8, ⟨8, 8⟩)])]
     [((some (Value.named 1), 1), [(exAlign8, ⟨8, 8⟩)])] (by decide)
     (by decide) (some (Value.named 1), 1) exAlign8,
   fillMapFromAssume_idempotent_orderfree.2 exKindOf exScrambled []
     [((some (Value.named 1), 1), [(exScrambled, ⟨2, 9⟩)])]
     (some (Value.named 1), 1)
     [((some (Value.named 1), 1), FillOp.val 2),
      ((some (Value.named 1), 1), FillOp.val 9),
      ((some (Value.named 1), 1), FillOp.val 5)]
     (by decide) (by decide) (by decide) (by decide)⟩

/-! ## Claim C9 — indexed path versus use-scan fallback -/

/-- C9 (counterexample): with a consistent Assumption Index (no
expression-result placeholders, same candidate set as the use scan) and an
always-true filter, the indexed path returns the align fact (kind 1,
argument 8) while the use-scan fallback — whose use list visits the two
facts in the opposite order — returns the nonnull fact (kind 2, no
argument): the two paths disagree on BOTH kind and argument, not merely on
the instance returned. -/
theorem getKnowledgeForValue_paths_differ_cex :
    (∀ Elem ∈ exCache, Elem.Index ≠ ExprResultIdx) ∧
    (∀ p ∈ cacheCandidates exCache, p ∈ useCandidates exUses) ∧
    (∀ p ∈ useCandidates exUses, p ∈ cacheCandidates exCache) ∧
    getKnowledgeForValue exKindOf [1, 2] (some exCache) exUses
        (fun _ _ _ => true)
      = some ⟨1, some (Value.named 1), some 8⟩ ∧
    getKnowledgeForValue exKindOf [1, 2] Option.none exUses
        (fun _ _ _ => true)
      = some ⟨2, some (Value.named 1), Option.none⟩ ∧
    (1 : Nat) ≠ 2 ∧
    some 8 ≠ (Option.none : Option Nat) := by
  decide

/-- The indexed path finds a match exactly when some visited candidate is
good (always-true filter, no fatal entries). -/
theorem knowledgeFromCache_found_iff (kindOf : String → Nat)
    (kinds : List Nat) :
    ∀ cache : List ResultElem,
      (∀ Elem ∈ cache, cacheElemOk kindOf Elem = true) →
      ((∃ rk, knowledgeFromCache kindOf kinds (fun _ _ _ => true) cache
            = some rk ∧ rk ≠ RetainedKnowledge.none) ↔
        ∃ p ∈ cacheCandidates cache,
          goodCandidate kindOf kinds p = true) := by
  intro cache
  induction cache with
  | nil =>
    intro _
    constructor
    · rintro ⟨rk, hrk, hne⟩
      cases hrk
      exact absurd rfl hne
    · rintro ⟨p, hp, _⟩
      exact absurd hp (List.not_mem_nil p)
  | cons Elem rest ih =>
    intro hok
    have hokE := hok Elem (List.mem_cons_self _ _)
    have hokr : ∀ E ∈ rest, cacheElemOk kindOf E = true :=
      fun E hE => hok E (List.mem_cons_of_mem _ hE)
    cases hA : Elem.Assume with
    | none =>
      have heq : knowledgeFromCache kindOf kinds (fun _ _ _ => true)
          (Elem :: rest) =
          knowledgeFromCache kindOf kinds (fun _ _ _ => true) rest := by
        simp [knowledgeFromCache, hA]
      have hc : cacheCandidates (Elem :: rest) = cacheCandidates rest := by
        simp [cacheCandidates, hA]
      rw [heq, hc]
      exact ih hokr
    | some II =>
      by_cases hI : Elem.Index = ExprResultIdx
      · have heq : knowledgeFromCache kindOf kinds (fun _ _ _ => true)
            (Elem :: rest) =
            knowledgeFromCache kindOf kinds (fun _ _ _ => true) rest := by
          simp [knowledgeFromCache, hA, hI]
        have hc : cacheCandidates (Elem :: rest) = cacheCandidates rest := by
          simp [cacheCandidates, hA, hI]
        rw [heq, hc]
        exact ih hokr
      · unfold cacheElemOk at hokE
        rw [hA] at hokE
        rw [Bool.or_eq_true] at hokE
        rcases hokE with hokE | hokE
        · rw [beq_iff_eq] at hokE
          exact absurd hokE hI
        · cases hb : II.bundles[Elem.Index]? with
          | none => simp [hb] at hokE
          | some b =>
            simp only [hb] at hokE
            cases hk : getKnowledgeFromBundle kindOf II b with
            | none => simp [hk] at hokE
            | some RK =>
              have hc : cacheCandidates (Elem :: rest)
                  = (II, b) :: cacheCandidates rest := by
                simp [cacheCandidates, hA, hI, hb]
              have hgood : goodCandidate kindOf kinds (II, b)
                  = (RK.toBool && kinds.contains RK.AttrKind) := by
                simp [goodCandidate, hk]
              have heq0 : knowledgeFromCache kindOf kinds
                  (fun _ _ _ => true) (Elem :: rest) =
                  if (RK.toBool && kinds.contains RK.AttrKind && true)
                      = true then some RK
                  else knowledgeFromCache kindOf kinds
                    (fun _ _ _ => true) rest := by
                simp only [knowledgeFromCache, hA, hb, hk]
                rw [if_neg hI]
              rw [Bool.and_true] at heq0
              by_cases hg : (RK.toBool && kinds.contains RK.AttrKind) = true
              · rw [heq0, if_pos hg]
                constructor
                · intro _
                  refine ⟨(II, b), ?_, ?_⟩
                  · rw [hc]; exact List.mem_cons_self _ _
                  · rw [hgood]; exact hg
                · intro _
                  refine ⟨RK, rfl, toBool_ne_none RK ?_⟩
                  exact (Bool.and_eq_true _ _ ▸ hg).1
              · rw [heq0, if_neg hg, hc, ih hokr]
                constructor
                · rintro ⟨p, hp, hgp⟩
                  exact ⟨p, List.mem_cons_of_mem _ hp, hgp⟩
                · rintro ⟨p, hp, hgp⟩
                  rcases List.mem_cons.mp hp with rfl | hp2
                  · rw [hgood] at hgp
                    exact absurd hgp hg
                  · exact ⟨p, hp2, hgp⟩

/-- The fallback path finds a match exactly when some visited candidate is
good (always-true filter, no fatal entries). -/
theorem knowledgeFromUses_found_iff (kindOf : String → Nat)
    (kinds : List Nat) :
    ∀ uses : List Use,
      (∀ U ∈ uses, useElemOk kindOf U = true) →
      ((∃ rk, knowledgeFromUses kindOf kinds (fun _ _ _ => true) uses
            = some rk ∧ rk ≠ RetainedKnowledge.none) ↔
        ∃ p ∈ useCandidates uses,
          goodCandidate kindOf kinds p = true) := by
  intro uses
  induction uses with
  | nil =>
    intro _
    constructor
    · rintro ⟨rk, hrk, hne⟩
      cases hrk
      exact absurd rfl hne
    · rintro ⟨p, hp, _⟩
      exact absurd hp (List.not_mem_nil p)
  | cons U rest ih =>
    intro hok
    have hokU := hok U (List.mem_cons_self _ _)
    have hokr : ∀ V ∈ rest, useElemOk kindOf V = true :=
      fun V hV => hok V (List.mem_cons_of_mem _ hV)
    cases hbu : getBundleFromUse U with
    | none =>
      have heq : knowledgeFromUses kindOf kinds (fun _ _ _ => true)
          (U :: rest) =
          knowledgeFromUses kindOf kinds (fun _ _ _ => true) rest := by
        simp [knowledgeFromUses, hbu]
      have hc : useCandidates (U :: rest) = useCandidates rest := by
        cases hus : U.user <;> simp [useCandidates, hbu, hus]
      rw [heq, hc]
      exact ih hokr
    | some b =>
      unfold useElemOk at hokU
      simp only [hbu] at hokU
      cases hus : U.user with
      | other ops => simp [hus] at hokU
      | assume c =>
        simp only [hus] at hokU
        cases hk : getKnowledgeFromBundle kindOf c b with
        | none => simp [hk] at hokU
        | some RK =>
          have hc : useCandidates (U :: rest)
              = (c, b) :: useCandidates rest := by
            simp [useCandidates, hbu, hus]
          have hgood : goodCandidate kindOf kinds (c, b)
              = (RK.toBool && kinds.contains RK.AttrKind) := by
            simp [goodCandidate, hk]
          have heq0 : knowledgeFromUses kindOf kinds
              (fun _ _ _ => true) (U :: rest) =
              if (RK.toBool && kinds.contains RK.AttrKind && true)
                  = true then some RK
              else knowledgeFromUses kindOf kinds
                (fun _ _ _ => true) rest := by
            simp only [knowledgeFromUses, hbu, hus, hk]
          rw [Bool.and_true] at heq0
          by_cases hg : (RK.toBool && kinds.contains RK.AttrKind) = true
          · rw [heq0, if_pos hg]
            constructor
            · intro _
              refine ⟨(c, b), ?_, ?_⟩
              · rw [hc]; exact List.mem_cons_self _ _
              · rw [hgood]; exact hg
            · intro _
              refine ⟨RK, rfl, toBool_ne_none RK ?_⟩
              exact (Bool.and_eq_true _ _ ▸ hg).1
          · rw [heq0, if_neg hg, hc, ih hokr]
            constructor
            · rintro ⟨p, hp, hgp⟩
              exact ⟨p, List.mem_cons_of_mem _ hp, hgp⟩
            · rintro ⟨p, hp, hgp⟩
              rcases List.mem_cons.mp hp with rfl | hp2
              · rw [hgood] at hgp
                exact absurd hgp hg
              · exact ⟨p, hp2, hgp⟩

/-- C9 (amended): when the Assumption Index holds no expression-result
placeholder entries, neither path hits a fatal condition, and the index's
candidate set coincides (as a set) with the bundles reached by the use
scan, the indexed path and the unindexed use-scan fallback path of
`getKnowledgeForValue` agree — for an always-true filter — on WHETHER any
knowledge is found; the kind, argument, and instance of the returned
knowledge may still differ when several distinct matching facts exist (see
the counterexample). -/
theorem getKnowledgeForValue_paths_found_iff (kindOf : String → Nat)
    (kinds : List Nat) (cache : List ResultElem) (uses : List Use)
    (hc : ∀ Elem ∈ cache, cacheElemOk kindOf Elem = true)
    (hu : ∀ U ∈ uses, useElemOk kindOf U = true)
    (_hx : ∀ Elem ∈ cache, Elem.Index ≠ ExprResultIdx)
    (hsub1 : ∀ p ∈ cacheCandidates cache, p ∈ useCandidates uses)
    (hsub2 : ∀ p ∈ useCandidates uses, p ∈ cacheCandidates cache) :
    ((∃ rk, getKnowledgeForValue kindOf kinds (some cache) uses
          (fun _ _ _ => true) = some rk ∧ rk ≠ RetainedKnowledge.none) ↔
     (∃ rk, getKnowledgeForValue kindOf kinds Option.none uses
          (fun _ _ _ => true) = some rk ∧ rk ≠ RetainedKnowledge.none)) := by
  have h1 : getKnowledgeForValue kindOf kinds (some cache) uses
      (fun _ _ _ => true) =
      knowledgeFromCache kindOf kinds (fun _ _ _ => true) cache := rfl
  have h2 : getKnowledgeForValue kindOf kinds Option.none uses
      (fun _ _ _ => true) =
      knowledgeFromUses kindOf kinds (fun _ _ _ => true) uses := rfl
  rw [h1, h2, knowledgeFromCache_found_iff kindOf kinds cache hc,
    knowledgeFromUses_found_iff kindOf kinds uses hu]
  constructor
  · rintro ⟨p, hp, hg⟩
    exact ⟨p, hsub1 p hp, hg⟩
  · rintro ⟨p, hp, hg⟩
    exact ⟨p, hsub2 p hp, hg⟩

theorem getKnowledgeForValue_paths_found_iff_witness :
    ((∃ rk, getKnowledgeForValue exKindOf [1] (some [⟨some exAlign8, 0⟩])
          [⟨Instruction.assume exAlign8, 1⟩] (fun _ _ _ => true)
          = some rk ∧ rk ≠ RetainedKnowledge.none) ↔
     (∃ rk, getKnowledgeForValue exKindOf [1] Option.none
          [⟨Instruction.assume exAlign8, 1⟩] (fun _ _ _ => true)
          = some rk ∧ rk ≠ RetainedKnowledge.none)) :=
  getKnowledgeForValue_paths_found_iff exKindOf [1] [⟨some exAlign8, 0⟩]
    [⟨Instruction.assume exAlign8, 1⟩] (by decide) (by decide) (by decide)
    (by decide) (by decide)

end AssumeBundle
